import Mathlib

/-!
Merge sort (`src/mgsort.c`): a shallow embedding.

The file `mgsort.c` holds two functions, `merge` (static) and `mgsort`.

Modelling decisions, each read off the source:

* The caller's buffer `data` is a list of elements of an abstract type `α`;
  one element stands for the `esize` bytes that `memcpy` moves at a time and
  that `compare` looks at.  Element `p` of the list is `&a[p * esize]`.
* Indices are C `int`s and are modelled by `Int`; the embedding describes the
  runs in which `i + k - 1`, the byte offsets `p * esize` and the request
  `esize * ((k - i) + 1)` stay inside the range of `int`.  `/` on `int`
  truncates, which is `Int.tdiv`.
* `malloc` is modelled by an oracle carried in the world: the list `heap`
  gives the outcome of the requests to come.
* Every access to the caller's buffer and to the temporary buffer is recorded
  in `log`, and an access outside the object stops the run with `Run.fault`.
* Loops and the recursion of `mgsort` run on fuel; `Run.outOfFuel` is the
  outcome of a run that has not finished within the fuel given.
* The body of `merge` uses a variable `j` which is neither a parameter nor a
  local of `merge` (its parameter list is that of `mgsort`).  The embedding
  takes `j` as an extra argument of `merge`.
* The third call in the body of `mgsort` is
  `mgsort(data, esize, i, j, k, compare)`: a call of `mgsort` itself whose
  parameters `size, esize, i, k` receive `esize, i, j, k`.  `merge` is called
  nowhere in the file.
-/

namespace MgSort

/-- One observable access made while the code runs. -/
inductive Event where
  /-- element `idx` of the caller's buffer is read -/
  | read (idx : Int)
  /-- element `idx` of the caller's buffer is written -/
  | write (idx : Int)
  /-- slot `slot` of the temporary buffer is written -/
  | tmpWrite (slot : Int)
  /-- slot `slot` of the temporary buffer is read -/
  | tmpRead (slot : Int)
  /-- `compare` is called on the elements `p` and `q` of the caller's buffer -/
  | compare (p q : Int)
  deriving DecidableEq

/-- Outcome of running a piece of code. -/
inductive Run (σ : Type) where
  /-- the code ran to its end and produced `s` -/
  | done (s : σ)
  /-- the code made the access `e`, which lies outside the object accessed -/
  | fault (e : Event)
  /-- the fuel ran out before the code finished -/
  | outOfFuel
  deriving DecidableEq

/-- What the code can see and change: the caller's buffer, the outcomes of the
`malloc` requests to come (`true`: memory is obtained; a request beyond the
end of the list obtains memory), and the accesses made so far. -/
structure World (α : Type) where
  data : List α
  heap : List Bool
  log : List Event
  deriving DecidableEq

/-- Result of `malloc(bytes)`: whether memory was obtained, and the world after
the request.  The oracle alone decides; the number of bytes asked for is not
looked at. -/
def malloc {α : Type} (w : World α) (_bytes : Int) : Bool × World α :=
  match w.heap with
  | [] => (true, w)
  | b :: rest => (b, { w with heap := rest })

/-- Element `idx` of the buffer `a`, if `idx` is a valid index. -/
def readAt {α : Type} (a : List α) (idx : Int) : Option α :=
  if 0 ≤ idx then a[idx.toNat]? else none

/-- Store `x` in slot `slot` of the temporary buffer, if the slot exists. -/
def storeTmp {α : Type} (m : List (Option α)) (slot : Int) (x : α) :
    Option (List (Option α)) :=
  if 0 ≤ slot ∧ slot < m.length then some (m.set slot.toNat (some x)) else none

/-- Local state of `merge` while its loop runs: the temporary buffer `m`
(`none` is a slot not written yet), the three cursors, and the accesses made
so far. -/
structure MergeState (α : Type) where
  m : List (Option α)
  ipos : Int
  jpos : Int
  mpos : Int
  log : List Event
  deriving DecidableEq

/-- The statement `memcpy(&m[mpos * esize], &a[src * esize], esize)`. -/
def copyElem {α : Type} (a : List α) (st : MergeState α) (src : Int) :
    Run (MergeState α) :=
  match readAt a src with
  | none => .fault (.read src)
  | some x =>
    match storeTmp st.m st.mpos x with
    | none => .fault (.tmpWrite st.mpos)
    | some m' =>
      .done { st with m := m', log := st.log ++ [.read src, .tmpWrite st.mpos] }

/-- The inner loop `while (jpos <= k) { memcpy(&m[mpos], &a[jpos]); jpos++; mpos++; }`. -/
def drainRight {α : Type} (a : List α) (k : Int) :
    Nat → MergeState α → Run (MergeState α)
  | 0, st => if st.jpos ≤ k then .outOfFuel else .done st
  | fuel + 1, st =>
    if st.jpos ≤ k then
      match copyElem a st st.jpos with
      | .done st' =>
        drainRight a k fuel { st' with jpos := st'.jpos + 1, mpos := st'.mpos + 1 }
      | r => r
    else .done st

/-- The inner loop `while (ipos <= j) { memcpy(&m[mpos], &a[jpos]); ipos++; mpos++; }`.
The source copies from `a[jpos]` here, and advances `ipos`. -/
def drainLeft {α : Type} (a : List α) (j : Int) :
    Nat → MergeState α → Run (MergeState α)
  | 0, st => if st.ipos ≤ j then .outOfFuel else .done st
  | fuel + 1, st =>
    if st.ipos ≤ j then
      match copyElem a st st.jpos with
      | .done st' =>
        drainLeft a j fuel { st' with ipos := st'.ipos + 1, mpos := st'.mpos + 1 }
      | r => r
    else .done st

/-- The loop `while (ipos <= j || jpos <= k) { ... }` of `merge`. -/
def mergeLoop {α : Type} (a : List α) (compare : α → α → Int) (j k : Int) :
    Nat → MergeState α → Run (MergeState α)
  | 0, st => if st.ipos ≤ j ∨ st.jpos ≤ k then .outOfFuel else .done st
  | fuel + 1, st =>
    if st.ipos ≤ j ∨ st.jpos ≤ k then
      if st.ipos > j then
        match drainRight a k (k + 1 - st.jpos).toNat st with
        | .done st' => mergeLoop a compare j k fuel st'
        | r => r
      else if st.jpos > k then
        match drainLeft a j (j + 1 - st.ipos).toNat st with
        | .done st' => mergeLoop a compare j k fuel st'
        | r => r
      else
        match readAt a st.ipos, readAt a st.jpos with
        | none, _ => .fault (.read st.ipos)
        | some _, none => .fault (.read st.jpos)
        | some x, some y =>
          let st1 := { st with log := st.log ++ [.compare st.ipos st.jpos] }
          if compare x y < 0 then
            match copyElem a st1 st1.ipos with
            | .done st' =>
              mergeLoop a compare j k fuel
                { st' with ipos := st'.ipos + 1, mpos := st'.mpos + 1 }
            | r => r
          else
            match copyElem a st1 st1.jpos with
            | .done st' =>
              mergeLoop a compare j k fuel
                { st' with jpos := st'.jpos + 1, mpos := st'.mpos + 1 }
            | r => r
    else .done st

/-- The copy back `memcpy(&a[i * esize], m, esize * n)`, element by element:
slot `s` of `m` goes to element `i + s` of the buffer, for `s = 0 .. n - 1`. -/
def copyBack {α : Type} (m : List (Option α)) (i : Int) :
    Nat → Nat → List α → List Event → Run (List α × List Event)
  | 0, _, a, log => .done (a, log)
  | n + 1, s, a, log =>
    match m[s]? with
    | some (some x) =>
      if 0 ≤ i + s ∧ i + s < a.length then
        copyBack m i n (s + 1) (a.set (i + s).toNat x)
          (log ++ [.tmpRead s, .write (i + s)])
      else .fault (.write (i + s))
    | _ => .fault (.tmpRead s)

/-- The function `merge` of the source, with the variable `j` of its body as
the last argument.  It returns `-1` when `malloc` gives no memory and `0` after
the copy back.  The parameter `size` is not used by the body. -/
def merge {α : Type} (w : World α) (_size esize i k : Int)
    (compare : α → α → Int) (j : Int) : Run (Int × World α) :=
  let ipos := i
  let jpos := j + 1
  let mpos := 0
  match malloc w (esize * ((k - i) + 1)) with
  | (false, w1) => .done (-1, w1)
  | (true, w1) =>
    let n := ((k - i) + 1).toNat
    let st0 : MergeState α :=
      { m := List.replicate n none, ipos := ipos, jpos := jpos, mpos := mpos, log := w1.log }
    match mergeLoop w1.data compare j k ((j + 1 - ipos).toNat + (k + 1 - jpos).toNat) st0 with
    | .done st =>
      match copyBack st.m i n 0 w1.data st.log with
      | .done (a', log') => .done (0, { w1 with data := a', log := log' })
      | .fault e => .fault e
      | .outOfFuel => .outOfFuel
    | .fault e => .fault e
    | .outOfFuel => .outOfFuel

/-- The split index `(int)(((i + k - 1)) / 2)` of `mgsort`, on mathematical
integers.  It is the value the C expression has when `i + k` and `i + k - 1` are
values of `int`; statements about the value computed by the code carry that
hypothesis. -/
def splitIndex (i k : Int) : Int := (i + k - 1).tdiv 2

/-- The body of `mgsort`, with `self` standing for the function that the three
calls in the body invoke (each of the three is a call of `mgsort`).
The third call passes `esize, i, j, k` for the parameters `size, esize, i, k`. -/
def mgsortBody {α : Type}
    (self : World α → Int → Int → Int → Int → (α → α → Int) → Run (Int × World α))
    (w : World α) (size esize i k : Int) (compare : α → α → Int) :
    Run (Int × World α) :=
  if i < k then
    let j := splitIndex i k
    match self w size esize i j compare with
    | .done (r1, w1) =>
      if r1 < 0 then .done (-1, w1)
      else
        match self w1 size esize (j + 1) k compare with
        | .done (r2, w2) =>
          if r2 < 0 then .done (-1, w2)
          else
            match self w2 esize i j k compare with
            | .done (r3, w3) =>
              if r3 < 0 then .done (-1, w3) else .done (0, w3)
            | .fault e => .fault e
            | .outOfFuel => .outOfFuel
        | .fault e => .fault e
        | .outOfFuel => .outOfFuel
    | .fault e => .fault e
    | .outOfFuel => .outOfFuel
  else .done (0, w)

/-- The function `mgsort` of the source; `fuel` bounds the depth of nested
calls (the outermost call needs one unit). -/
def mgsort {α : Type} : Nat → World α → Int → Int → Int → Int → (α → α → Int) →
    Run (Int × World α)
  | 0 => fun _ _ _ _ _ _ => .outOfFuel
  | fuel + 1 => mgsortBody (mgsort fuel)

/-- The ascending comparator on integers used by the examples. -/
def ascending (x y : Int) : Int :=
  if x < y then -1 else if x = y then 0 else 1

/-- A comparator on pairs that looks at the first field only. -/
def byFirst (x y : Int × String) : Int := ascending x.1 y.1

/-- A callee for the body of `mgsort` that reports failure (`-1`) on the range
`p .. q` and success on every other range, and leaves the world alone.  It is
used to run the body of `mgsort` with a call that fails. -/
def failsOn {α : Type} (p q : Int) :
    World α → Int → Int → Int → Int → (α → α → Int) → Run (Int × World α) :=
  fun w _ _ i k _ => if i = p ∧ k = q then .done (-1, w) else .done (0, w)

/-- Least value of a C `int` (32 bits). -/
def INT_MIN : Int := -2147483648

/-- Greatest value of a C `int` (32 bits). -/
def INT_MAX : Int := 2147483647

/-- A world with buffer `a`, memory for every request, and no access made. -/
def World.init {α : Type} (a : List α) : World α :=
  { data := a, heap := [], log := [] }

end MgSort

namespace MgSort

/-! ## Auxiliary facts -/

/-- Truncating division by two, in terms of the division that rounds down. -/
theorem tdiv_two_eq (s : Int) :
    s.tdiv 2 = if 0 ≤ s then s / 2 else -((-s) / 2) := by
  split
  · next h => exact Int.tdiv_eq_ediv h (by decide)
  · next h =>
    have h1 : s = -(-s) := by omega
    have h2 : (-(-s)).tdiv 2 = -((-s).tdiv 2) := Int.neg_tdiv (-s) 2
    have h3 : (-s).tdiv 2 = (-s) / 2 := Int.tdiv_eq_ediv (by omega) (by decide)
    rw [h3, ← h1] at h2
    exact h2

/-- The split index of a range `i < k` lies below `k`. -/
theorem splitIndex_lt {i k : Int} (h : i < k) : splitIndex i k < k := by
  unfold splitIndex
  rw [tdiv_two_eq]
  split <;> omega

/-- What `mgsort` computes: on a range `i < k` the run never finishes, whatever
the fuel; on a range `i ≥ k` it returns `0` and the world it was given. -/
theorem mgsort_eq {α : Type} (fuel : Nat) :
    ∀ (w : World α) (size esize i k : Int) (compare : α → α → Int),
      mgsort fuel w size esize i k compare
        = if fuel = 0 ∨ i < k then .outOfFuel else .done (0, w) := by
  induction fuel with
  | zero => intro w size esize i k compare; simp [mgsort]
  | succ n ih =>
    intro w size esize i k compare
    show mgsortBody (mgsort n) w size esize i k compare = _
    unfold mgsortBody
    by_cases h : i < k
    · have hj := splitIndex_lt h
      simp only [h, ih, hj]
      by_cases h0 : n = 0
      · simp [h0]
      · by_cases h1 : i < splitIndex i k
        · simp [h1]
        · by_cases h2 : splitIndex i k + 1 < k
          · simp [h0, h1, h2]
          · simp [h0, h1, h2]
    · simp [h]

/-- A request for memory leaves the caller's buffer and the log alone. -/
theorem malloc_snd {α : Type} (w : World α) (bytes : Int) :
    (malloc w bytes).2.data = w.data ∧ (malloc w bytes).2.log = w.log := by
  unfold malloc
  cases w.heap <;> simp

/-- Reading a valid index of a list after one element was replaced at
another index. -/
theorem readAt_set_ne {α : Type} (a : List α) (p : Nat) (x : α) (idx : Int)
    (h : idx ≠ (p : Int)) : readAt (a.set p x) idx = readAt a idx := by
  unfold readAt
  split
  · next h0 =>
    have hne : p ≠ idx.toNat := by omega
    simp [List.getElem?_set_ne hne]
  · rfl

/-- The copy back changes no element outside `i + s .. i + s + n - 1` and keeps
the length of the buffer. -/
theorem copyBack_frame {α : Type} (m : List (Option α)) (i : Int) :
    ∀ (n s : Nat) (a : List α) (log : List Event) (a' : List α) (log' : List Event),
      copyBack m i n s a log = .done (a', log') →
      a'.length = a.length ∧
        ∀ idx : Int, (idx < i + s ∨ i + s + n ≤ idx) → readAt a' idx = readAt a idx := by
  intro n
  induction n with
  | zero =>
    intro s a log a' log' h
    simp only [copyBack, Run.done.injEq, Prod.mk.injEq] at h
    obtain ⟨rfl, -⟩ := h
    exact ⟨rfl, fun _ _ => rfl⟩
  | succ n ih =>
    intro s a log a' log' h
    unfold copyBack at h
    split at h
    · next x hx =>
      split at h
      · next hr =>
        obtain ⟨hlen, hfr⟩ := ih (s + 1) _ _ a' log' h
        refine ⟨by simpa using hlen, ?_⟩
        intro idx hidx
        rw [hfr idx (by push_cast; omega)]
        have hcast : ((i + (s : Int)).toNat : Int) = i + s := by omega
        exact readAt_set_ne a _ x idx (by omega)
      · cases h
    · cases h

/-- The copy back never runs out of fuel: it is a loop over `n` slots. -/
theorem copyBack_ne_outOfFuel {α : Type} (m : List (Option α)) (i : Int) :
    ∀ (n s : Nat) (a : List α) (log : List Event),
      copyBack m i n s a log ≠ .outOfFuel := by
  intro n
  induction n with
  | zero => intro s a log; simp [copyBack]
  | succ n ih =>
    intro s a log
    unfold copyBack
    split
    · split
      · exact ih _ _ _
      · simp
    · simp

/-- A copy into the temporary buffer leaves the three cursors alone. -/
theorem copyElem_cursors {α : Type} (a : List α) (st st' : MergeState α) (src : Int)
    (h : copyElem a st src = .done st') :
    st'.ipos = st.ipos ∧ st'.jpos = st.jpos ∧ st'.mpos = st.mpos := by
  unfold copyElem at h
  split at h
  · cases h
  · split at h
    · cases h
    · simp only [Run.done.injEq] at h
      subst h
      exact ⟨rfl, rfl, rfl⟩

/-- With fuel for every remaining element of the right run, the inner loop
over the right run does not run out of fuel; when it finishes, `jpos` has
passed `k` and `ipos` is where it was. -/
theorem drainRight_spec {α : Type} (a : List α) (k : Int) :
    ∀ (n : Nat) (st : MergeState α), (k + 1 - st.jpos).toNat ≤ n →
      drainRight a k n st ≠ .outOfFuel ∧
        ∀ st', drainRight a k n st = .done st' → st'.ipos = st.ipos ∧ k < st'.jpos := by
  intro n
  induction n with
  | zero =>
    intro st hn
    have hk : ¬ st.jpos ≤ k := by omega
    simp only [drainRight, hk, if_false]
    refine ⟨by simp, ?_⟩
    intro st' h
    simp only [Run.done.injEq] at h
    subst h
    exact ⟨rfl, by omega⟩
  | succ n ih =>
    intro st hn
    unfold drainRight
    by_cases hk : st.jpos ≤ k
    · simp only [hk, if_true]
      cases hc : copyElem a st st.jpos with
      | done st1 =>
        obtain ⟨hi, hj, -⟩ := copyElem_cursors a st st1 _ hc
        have := ih { st1 with jpos := st1.jpos + 1, mpos := st1.mpos + 1 }
          (by simp only [hj]; omega)
        refine ⟨this.1, ?_⟩
        intro st' h
        have h2 := this.2 st' h
        exact ⟨by rw [h2.1]; exact hi, h2.2⟩
      | fault e => simp
      | outOfFuel =>
        exfalso
        unfold copyElem at hc
        split at hc
        · cases hc
        · split at hc <;> cases hc
    · simp only [hk, if_false]
      refine ⟨by simp, ?_⟩
      intro st' h
      simp only [Run.done.injEq] at h
      subst h
      exact ⟨rfl, by omega⟩

/-- A copy into the temporary buffer is a single statement: it uses no fuel. -/
theorem copyElem_ne_outOfFuel {α : Type} (a : List α) (st : MergeState α) (src : Int) :
    copyElem a st src ≠ .outOfFuel := by
  unfold copyElem
  split
  · simp
  · split <;> simp

/-- With fuel for every remaining element of the left run, the inner loop over
the left run does not run out of fuel; when it finishes, `ipos` has passed `j`
and `jpos` is where it was. -/
theorem drainLeft_spec {α : Type} (a : List α) (j : Int) :
    ∀ (n : Nat) (st : MergeState α), (j + 1 - st.ipos).toNat ≤ n →
      drainLeft a j n st ≠ .outOfFuel ∧
        ∀ st', drainLeft a j n st = .done st' → st'.jpos = st.jpos ∧ j < st'.ipos := by
  intro n
  induction n with
  | zero =>
    intro st hn
    have hj : ¬ st.ipos ≤ j := by omega
    simp only [drainLeft, hj, if_false]
    refine ⟨by simp, ?_⟩
    intro st' h
    simp only [Run.done.injEq] at h
    subst h
    exact ⟨rfl, by omega⟩
  | succ n ih =>
    intro st hn
    unfold drainLeft
    by_cases hj : st.ipos ≤ j
    · simp only [hj, if_true]
      cases hc : copyElem a st st.jpos with
      | done st1 =>
        obtain ⟨hi, hjp, -⟩ := copyElem_cursors a st st1 _ hc
        have := ih { st1 with ipos := st1.ipos + 1, mpos := st1.mpos + 1 }
          (by simp only [hi]; omega)
        refine ⟨this.1, ?_⟩
        intro st' h
        have h2 := this.2 st' h
        exact ⟨by rw [h2.1]; exact hjp, h2.2⟩
      | fault e => simp
      | outOfFuel => exact absurd hc (copyElem_ne_outOfFuel a st _)
    · simp only [hj, if_false]
      refine ⟨by simp, ?_⟩
      intro st' h
      simp only [Run.done.injEq] at h
      subst h
      exact ⟨rfl, by omega⟩

/-- With one unit of fuel for every element of the two runs not consumed yet,
the loop of `merge` does not run out of fuel. -/
theorem mergeLoop_ne_outOfFuel {α : Type} (a : List α) (compare : α → α → Int)
    (j k : Int) :
    ∀ (n : Nat) (st : MergeState α),
      (j + 1 - st.ipos).toNat + (k + 1 - st.jpos).toNat ≤ n →
      mergeLoop a compare j k n st ≠ .outOfFuel := by
  intro n
  induction n with
  | zero =>
    intro st hn
    have hc : ¬ (st.ipos ≤ j ∨ st.jpos ≤ k) := by omega
    simp [mergeLoop, hc]
  | succ n ih =>
    intro st hn
    unfold mergeLoop
    by_cases hc : st.ipos ≤ j ∨ st.jpos ≤ k
    · simp only [hc, if_true]
      by_cases hi : st.ipos > j
      · simp only [hi, if_true]
        obtain ⟨hne, hdone⟩ := drainRight_spec a k (k + 1 - st.jpos).toNat st (le_refl _)
        cases hd : drainRight a k (k + 1 - st.jpos).toNat st with
        | done st1 =>
          obtain ⟨h1, h2⟩ := hdone st1 hd
          exact ih st1 (by rw [h1]; omega)
        | fault e => simp
        | outOfFuel => exact absurd hd hne
      · simp only [hi, if_false]
        by_cases hj : st.jpos > k
        · simp only [hj, if_true]
          obtain ⟨hne, hdone⟩ := drainLeft_spec a j (j + 1 - st.ipos).toNat st (le_refl _)
          cases hd : drainLeft a j (j + 1 - st.ipos).toNat st with
          | done st1 =>
            obtain ⟨h1, h2⟩ := hdone st1 hd
            exact ih st1 (by rw [h1]; omega)
          | fault e => simp
          | outOfFuel => exact absurd hd hne
        · simp only [hj, if_false]
          split
          · simp
          · simp
          · next x y _ _ =>
            split
            · split
              · next st1 hcp =>
                obtain ⟨h1, h2, -⟩ := copyElem_cursors a _ st1 _ hcp
                exact ih _ (by simp only [h1, h2]; omega)
              · next r hr hcp =>
                exact copyElem_ne_outOfFuel a _ _
            · split
              · next st1 hcp =>
                obtain ⟨h1, h2, -⟩ := copyElem_cursors a _ st1 _ hcp
                exact ih _ (by simp only [h1, h2]; omega)
              · next r hr hcp =>
                exact copyElem_ne_outOfFuel a _ _
    · simp [hc]

/-- The function `merge` never runs out of fuel: the fuel it gives to its loop is
enough.  A run of `merge` ends in a return or in an access outside an
object. -/
theorem merge_ne_outOfFuel {α : Type} (w : World α) (size esize i k : Int)
    (compare : α → α → Int) (j : Int) :
    merge w size esize i k compare j ≠ .outOfFuel := by
  unfold merge
  simp only []
  split
  · simp
  · next w1 _ =>
    split
    · split
      · simp
      · simp
      · next hcb => exact absurd hcb (copyBack_ne_outOfFuel _ _ _ _ _ _)
    · simp
    · next hml =>
      exact absurd hml (mergeLoop_ne_outOfFuel _ _ _ _ _ _ (le_refl _))

/-- When `merge` returns, the buffer has the length it had, and every element
outside `i .. k` is the element that was there. -/
theorem merge_frame {α : Type} (w w' : World α) (size esize i k : Int)
    (compare : α → α → Int) (j r : Int)
    (h : merge w size esize i k compare j = .done (r, w')) :
    w'.data.length = w.data.length ∧
      ∀ idx : Int, (idx < i ∨ k < idx) → readAt w'.data idx = readAt w.data idx := by
  unfold merge at h
  simp only [] at h
  have hm := malloc_snd w (esize * ((k - i) + 1))
  split at h
  · next w1 hw1 =>
    simp only [Run.done.injEq, Prod.mk.injEq] at h
    rw [hw1] at hm
    obtain ⟨-, rfl⟩ := h
    exact ⟨by rw [hm.1], fun _ _ => by rw [hm.1]⟩
  · next w1 hw1 =>
    rw [hw1] at hm
    simp only at hm
    split at h
    · next st hst =>
      split at h
      · next a' log' hcb =>
        simp only [Run.done.injEq, Prod.mk.injEq] at h
        obtain ⟨-, rfl⟩ := h
        obtain ⟨hlen, hfr⟩ := copyBack_frame _ _ _ _ _ _ _ _ hcb
        simp only
        rw [hm.1] at hlen hfr
        refine ⟨hlen, ?_⟩
        intro idx hidx
        exact hfr idx (by push_cast; omega)
      · cases h
      · cases h
    · cases h
    · cases h

/-- A copy into the temporary buffer at a slot other than slot `0` leaves slot
`0` alone. -/
theorem copyElem_slot_zero {α : Type} (a : List α) (st st' : MergeState α) (src : Int)
    (h : copyElem a st src = .done st') (hm : 1 ≤ st.mpos) :
    st'.m[0]? = st.m[0]? := by
  unfold copyElem at h
  split at h
  · cases h
  · split at h
    · cases h
    · next m' hs =>
      simp only [Run.done.injEq] at h
      subst h
      unfold storeTmp at hs
      split at hs
      · simp only [Option.some.injEq] at hs
        subst hs
        have hne : st.mpos.toNat ≠ 0 := by omega
        exact List.getElem?_set_ne hne
      · cases hs

/-- The inner loop over the right run leaves slot `0` of the temporary buffer
alone once the write cursor has passed it. -/
theorem drainRight_slot_zero {α : Type} (a : List α) (k : Int) :
    ∀ (n : Nat) (st st' : MergeState α), drainRight a k n st = .done st' →
      1 ≤ st.mpos → st'.m[0]? = st.m[0]? ∧ 1 ≤ st'.mpos := by
  intro n
  induction n with
  | zero =>
    intro st st' h hm
    unfold drainRight at h
    split at h
    · cases h
    · simp only [Run.done.injEq] at h
      subst h
      exact ⟨rfl, hm⟩
  | succ n ih =>
    intro st st' h hm
    unfold drainRight at h
    split at h
    · split at h
      · next st1 hc =>
        obtain ⟨-, -, hmp⟩ := copyElem_cursors a st st1 _ hc
        have h0 := copyElem_slot_zero a st st1 _ hc hm
        obtain ⟨h1, h2⟩ := ih _ st' h (by simp only [hmp]; omega)
        exact ⟨by rw [h1]; exact h0, h2⟩
      · next r hr =>
        exact absurd h (hr st')
    · simp only [Run.done.injEq] at h
      subst h
      exact ⟨rfl, hm⟩

/-- The inner loop over the left run leaves slot `0` of the temporary buffer
alone once the write cursor has passed it. -/
theorem drainLeft_slot_zero {α : Type} (a : List α) (j : Int) :
    ∀ (n : Nat) (st st' : MergeState α), drainLeft a j n st = .done st' →
      1 ≤ st.mpos → st'.m[0]? = st.m[0]? ∧ 1 ≤ st'.mpos := by
  intro n
  induction n with
  | zero =>
    intro st st' h hm
    unfold drainLeft at h
    split at h
    · cases h
    · simp only [Run.done.injEq] at h
      subst h
      exact ⟨rfl, hm⟩
  | succ n ih =>
    intro st st' h hm
    unfold drainLeft at h
    split at h
    · split at h
      · next st1 hc =>
        obtain ⟨-, -, hmp⟩ := copyElem_cursors a st st1 _ hc
        have h0 := copyElem_slot_zero a st st1 _ hc hm
        obtain ⟨h1, h2⟩ := ih _ st' h (by simp only [hmp]; omega)
        exact ⟨by rw [h1]; exact h0, h2⟩
      · next r hr =>
        exact absurd h (hr st')
    · simp only [Run.done.injEq] at h
      subst h
      exact ⟨rfl, hm⟩

/-- The loop of `merge` leaves slot `0` of the temporary buffer alone once the
write cursor has passed it. -/
theorem mergeLoop_slot_zero {α : Type} (a : List α) (compare : α → α → Int)
    (j k : Int) :
    ∀ (n : Nat) (st st' : MergeState α), mergeLoop a compare j k n st = .done st' →
      1 ≤ st.mpos → st'.m[0]? = st.m[0]? ∧ 1 ≤ st'.mpos := by
  intro n
  induction n with
  | zero =>
    intro st st' h hm
    unfold mergeLoop at h
    split at h
    · cases h
    · simp only [Run.done.injEq] at h
      subst h
      exact ⟨rfl, hm⟩
  | succ n ih =>
    intro st st' h hm
    unfold mergeLoop at h
    split at h
    · split at h
      · split at h
        · next st1 hd =>
          obtain ⟨h1, h2⟩ := drainRight_slot_zero a k _ st st1 hd hm
          obtain ⟨h3, h4⟩ := ih st1 st' h h2
          exact ⟨by rw [h3]; exact h1, h4⟩
        · next r hr => exact absurd h (hr st')
      · split at h
        · split at h
          · next st1 hd =>
            obtain ⟨h1, h2⟩ := drainLeft_slot_zero a j _ st st1 hd hm
            obtain ⟨h3, h4⟩ := ih st1 st' h h2
            exact ⟨by rw [h3]; exact h1, h4⟩
          · next r hr => exact absurd h (hr st')
        · split at h
          · cases h
          · cases h
          · split at h
            · dsimp only at h
              split at h
              · next st2 hc =>
                obtain ⟨-, -, hmp⟩ := copyElem_cursors a _ st2 _ hc
                have h0 := copyElem_slot_zero a _ st2 _ hc hm
                obtain ⟨h3, h4⟩ := ih _ st' h (by simp only [hmp]; omega)
                exact ⟨by rw [h3]; exact h0, h4⟩
              · next r hr => exact absurd h (hr st')
            · dsimp only at h
              split at h
              · next st2 hc =>
                obtain ⟨-, -, hmp⟩ := copyElem_cursors a _ st2 _ hc
                have h0 := copyElem_slot_zero a _ st2 _ hc hm
                obtain ⟨h3, h4⟩ := ih _ st' h (by simp only [hmp]; omega)
                exact ⟨by rw [h3]; exact h0, h4⟩
              · next r hr => exact absurd h (hr st')
    · simp only [Run.done.injEq] at h
      subst h
      exact ⟨rfl, hm⟩

/-- Reading the index at which a list was just changed. -/
theorem readAt_set_self {α : Type} (a : List α) (p : Int) (x : α)
    (h0 : 0 ≤ p) (h1 : p < a.length) : readAt (a.set p.toNat x) p = some x := by
  unfold readAt
  have hlt : p.toNat < a.length := by omega
  simp [h0, hlt]

/-- When the copy back of at least one slot finishes, slot `s` of the temporary
buffer held a value, and element `i + s` of the buffer is that value. -/
theorem copyBack_first {α : Type} (m : List (Option α)) (i : Int) (n s : Nat)
    (a : List α) (log : List Event) (a' : List α) (log' : List Event)
    (h : copyBack m i (n + 1) s a log = .done (a', log')) :
    ∃ v, m[s]? = some (some v) ∧ readAt a' (i + s) = some v := by
  unfold copyBack at h
  split at h
  · next x hx =>
    split at h
    · next hr =>
      obtain ⟨-, hfr⟩ := copyBack_frame m i n (s + 1) _ _ a' log' h
      refine ⟨x, hx, ?_⟩
      rw [hfr (i + s) (by push_cast; omega)]
      exact readAt_set_self a (i + s) x hr.1 hr.2
    · cases h
  · cases h

/-- One turn of the loop of `merge` when both runs have an element left: the
left element goes to slot `mpos` and `ipos` advances when it compares strictly
less than the right element; otherwise the right element goes to slot `mpos` and
`jpos` advances. -/
theorem mergeLoop_compare_step {α : Type} (a : List α) (compare : α → α → Int)
    (j k : Int) (fuel : Nat) (st : MergeState α) (x y : α)
    (hi : st.ipos ≤ j) (hj : st.jpos ≤ k)
    (hx : readAt a st.ipos = some x) (hy : readAt a st.jpos = some y)
    (hslot : 0 ≤ st.mpos ∧ st.mpos < st.m.length) :
    mergeLoop a compare j k (fuel + 1) st =
      if compare x y < 0 then
        mergeLoop a compare j k fuel
          { m := st.m.set st.mpos.toNat (some x), ipos := st.ipos + 1, jpos := st.jpos,
            mpos := st.mpos + 1,
            log := st.log ++ [.compare st.ipos st.jpos] ++ [.read st.ipos, .tmpWrite st.mpos] }
      else
        mergeLoop a compare j k fuel
          { m := st.m.set st.mpos.toNat (some y), ipos := st.ipos, jpos := st.jpos + 1,
            mpos := st.mpos + 1,
            log := st.log ++ [.compare st.ipos st.jpos] ++ [.read st.jpos, .tmpWrite st.mpos] } := by
  have hi' : ¬ st.ipos > j := by omega
  have hj' : ¬ st.jpos > k := by omega
  rw [mergeLoop]
  simp only [hi, true_or, if_true, hi', hj', if_false, hx, hy]
  split
  · simp [copyElem, storeTmp, hx, hslot]
  · simp [copyElem, storeTmp, hy, hslot]

/-- When the inner loop over the right run finishes, `jpos` is `k + 1` and the
write cursor has advanced by the number of elements copied. -/
theorem drainRight_cursors {α : Type} (a : List α) (k : Int) :
    ∀ (n : Nat) (st st' : MergeState α), drainRight a k n st = .done st' →
      st.jpos ≤ k + 1 →
      st'.ipos = st.ipos ∧ st'.jpos = k + 1 ∧ st'.mpos = st.mpos + (k + 1 - st.jpos) := by
  intro n
  induction n with
  | zero =>
    intro st st' h hb
    unfold drainRight at h
    split at h
    · cases h
    · simp only [Run.done.injEq] at h
      subst h
      exact ⟨rfl, by omega, by omega⟩
  | succ n ih =>
    intro st st' h hb
    unfold drainRight at h
    split at h
    · split at h
      · next st1 hc =>
        obtain ⟨hi, hj, hmp⟩ := copyElem_cursors a st st1 _ hc
        obtain ⟨h1, h2, h3⟩ := ih _ st' h (by simp only [hj]; omega)
        simp only at h1 h3
        exact ⟨by rw [h1, hi], h2, by rw [h3, hmp, hj]; omega⟩
      · next r hr => exact absurd h (hr st')
    · simp only [Run.done.injEq] at h
      subst h
      exact ⟨rfl, by omega, by omega⟩

/-- When the inner loop over the left run finishes, `ipos` is `j + 1` and the
write cursor has advanced by the number of elements copied. -/
theorem drainLeft_cursors {α : Type} (a : List α) (j : Int) :
    ∀ (n : Nat) (st st' : MergeState α), drainLeft a j n st = .done st' →
      st.ipos ≤ j + 1 →
      st'.jpos = st.jpos ∧ st'.ipos = j + 1 ∧ st'.mpos = st.mpos + (j + 1 - st.ipos) := by
  intro n
  induction n with
  | zero =>
    intro st st' h hb
    unfold drainLeft at h
    split at h
    · cases h
    · simp only [Run.done.injEq] at h
      subst h
      exact ⟨rfl, by omega, by omega⟩
  | succ n ih =>
    intro st st' h hb
    unfold drainLeft at h
    split at h
    · split at h
      · next st1 hc =>
        obtain ⟨hi, hj, hmp⟩ := copyElem_cursors a st st1 _ hc
        obtain ⟨h1, h2, h3⟩ := ih _ st' h (by simp only [hi]; omega)
        simp only at h1 h3
        exact ⟨by rw [h1, hj], h2, by rw [h3, hmp, hi]; omega⟩
      · next r hr => exact absurd h (hr st')
    · simp only [Run.done.injEq] at h
      subst h
      exact ⟨rfl, by omega, by omega⟩

/-- When the loop of `merge` reaches its end, both read cursors stand just past
their runs and the write cursor has advanced by one for every element of the two
runs that was still to be consumed. -/
theorem mergeLoop_cursors {α : Type} (a : List α) (compare : α → α → Int)
    (j k : Int) :
    ∀ (n : Nat) (st st' : MergeState α), mergeLoop a compare j k n st = .done st' →
      st.ipos ≤ j + 1 → st.jpos ≤ k + 1 →
      st'.ipos = j + 1 ∧ st'.jpos = k + 1
        ∧ st'.mpos = st.mpos + (j + 1 - st.ipos) + (k + 1 - st.jpos) := by
  intro n
  induction n with
  | zero =>
    intro st st' h hbi hbj
    unfold mergeLoop at h
    split at h
    · cases h
    · simp only [Run.done.injEq] at h
      subst h
      exact ⟨by omega, by omega, by omega⟩
  | succ n ih =>
    intro st st' h hbi hbj
    unfold mergeLoop at h
    split at h
    · split at h
      · split at h
        · next st1 hd =>
          obtain ⟨h1, h2, h3⟩ := drainRight_cursors a k _ st st1 hd hbj
          obtain ⟨h4, h5, h6⟩ := ih st1 st' h (by omega) (by omega)
          exact ⟨h4, h5, by omega⟩
        · next r hr => exact absurd h (hr st')
      · split at h
        · split at h
          · next st1 hd =>
            obtain ⟨h1, h2, h3⟩ := drainLeft_cursors a j _ st st1 hd hbi
            obtain ⟨h4, h5, h6⟩ := ih st1 st' h (by omega) (by omega)
            exact ⟨h4, h5, by omega⟩
          · next r hr => exact absurd h (hr st')
        · split at h
          · cases h
          · cases h
          · split at h
            · dsimp only at h
              split at h
              · next st2 hc =>
                obtain ⟨hi, hj, hmp⟩ := copyElem_cursors a _ st2 _ hc
                simp only at hi hj hmp
                obtain ⟨h4, h5, h6⟩ := ih _ st' h (by simp only [hi]; omega)
                  (by simp only [hj]; omega)
                simp only [hi, hj, hmp] at h6
                exact ⟨h4, h5, by omega⟩
              · next r hr => exact absurd h (hr st')
            · dsimp only at h
              split at h
              · next st2 hc =>
                obtain ⟨hi, hj, hmp⟩ := copyElem_cursors a _ st2 _ hc
                simp only at hi hj hmp
                obtain ⟨h4, h5, h6⟩ := ih _ st' h (by simp only [hi]; omega)
                  (by simp only [hj]; omega)
                simp only [hi, hj, hmp] at h6
                exact ⟨h4, h5, by omega⟩
              · next r hr => exact absurd h (hr st')
    · simp only [Run.done.injEq] at h
      subst h
      exact ⟨by omega, by omega, by omega⟩

/-! ## The claims -/

/-- C1 (the example of the claim, on the code): `mgsort` called on
`[5, 3, 8, 1, 9, 2]` over the whole range `0 .. 5` with the ascending comparator
does not return, whatever the fuel: its third call is `mgsort` on `j .. k`
again, never `merge`, so no run reaches `[1, 2, 3, 5, 8, 9]`. -/
theorem sort_example_never_returns :
    ∀ fuel : Nat,
      mgsort fuel (World.init [5, 3, 8, 1, 9, 2]) 6 4 0 5 ascending = .outOfFuel := by
  intro fuel
  rw [mgsort_eq]
  simp

/-- C3 (on the code): `mgsort` called on the sorted buffer `[1, 2, 2, 3]` over
the whole range `0 .. 3` does not return, whatever the fuel. -/
theorem sorted_input_never_returns :
    ∀ fuel : Nat,
      mgsort fuel (World.init [1, 2, 2, 3]) 4 4 0 3 ascending = .outOfFuel := by
  intro fuel
  rw [mgsort_eq]
  simp

/-- C4 (on the code): `merge` on the buffer `[2, 1, 0]` with `i = 0`, `j = 0`,
`k = 1` (the runs `[2]` and `[1]`) returns `0` and leaves `[1, 0, 0]`: after the
right run is used up the loop over the left run copies `a[jpos] = a[2]`, so the
range `0 .. 1` holds `1, 0`, which is not in order and is not the multiset
`2, 1`. -/
theorem merge_sorted_runs_counterexample :
    merge (World.init [2, 1, 0]) 3 4 0 1 ascending 0
        = .done (0, { data := [1, 0, 0], heap := [],
                      log := [.compare 0 1, .read 1, .tmpWrite 0, .read 2, .tmpWrite 1,
                              .tmpRead 0, .write 0, .tmpRead 1, .write 1] })
      ∧ 0 < ascending 1 0
      ∧ (([1, 0] : List Int) : Multiset Int) ≠ (([2, 1] : List Int) : Multiset Int) := by
  refine ⟨by decide, by decide, by decide⟩

/-- C5: for every buffer and every pair of indices with `i ≥ k`, `mgsort` returns
`0` and the world it was given (same buffer, no access logged), and its body
does so whatever the function its calls would invoke: no call is made. -/
theorem mgsort_base_case {α : Type} (fuel : Nat) (w : World α)
    (size esize i k : Int) (compare : α → α → Int) (h : k ≤ i) :
    mgsort (fuel + 1) w size esize i k compare = .done (0, w)
      ∧ ∀ self, mgsortBody self w size esize i k compare = .done (0, w) := by
  have hik : ¬ i < k := by omega
  refine ⟨?_, ?_⟩
  · rw [mgsort_eq]
    simp [hik]
  · intro self
    simp [mgsortBody, hik]

/-- Witness of C5: the empty buffer, whole range `0 .. -1`. -/
theorem mgsort_base_case_witness :
    mgsort (0 + 1) (World.init ([] : List Int)) 0 4 0 (-1) ascending
        = .done (0, World.init [])
      ∧ ∀ self, mgsortBody self (World.init ([] : List Int)) 0 4 0 (-1) ascending
        = .done (0, World.init []) :=
  mgsort_base_case 0 (World.init []) 0 4 0 (-1) ascending (by decide)

/-- C6 (on the code): `mgsort` called on `[(1, "a"), (1, "b")]` over the range
`0 .. 1`, comparing on the first field, does not return, whatever the fuel; no
run yields `[(1, "b"), (1, "a")]`. -/
theorem tie_break_never_returns :
    ∀ fuel : Nat,
      mgsort fuel (World.init [((1 : Int), "a"), (1, "b")]) 2 32 0 1 byFirst
        = .outOfFuel := by
  intro fuel
  rw [mgsort_eq]
  simp

/-- C7 (on the code): `merge` on the buffer `[2, 1]` of two elements with
`i = 0`, `j = 0`, `k = 1` reads element `2` of the buffer, which is outside
`0 .. 1` and outside the buffer. -/
theorem merge_reads_outside_range :
    merge (World.init [2, 1]) 2 4 0 1 ascending 0 = .fault (.read 2) := by
  decide

/-- C8: whenever `mgsort` on a range `i .. k`, or `merge` on `i ≤ j < k`, returns
(with success or with failure), the buffer has the length it had and every
element at an index outside `i .. k` has the value it had before the call. -/
theorem frame_outside_range {α : Type} (fuel : Nat) (w w' : World α)
    (size esize i j k r : Int) (compare : α → α → Int) :
    (mgsort fuel w size esize i k compare = .done (r, w') →
        w'.data.length = w.data.length ∧
          ∀ idx : Int, (idx < i ∨ k < idx) → readAt w'.data idx = readAt w.data idx)
    ∧ (merge w size esize i k compare j = .done (r, w') →
        w'.data.length = w.data.length ∧
          ∀ idx : Int, (idx < i ∨ k < idx) → readAt w'.data idx = readAt w.data idx) := by
  refine ⟨?_, merge_frame w w' size esize i k compare j r⟩
  intro h
  rw [mgsort_eq] at h
  split at h
  · cases h
  · simp only [Run.done.injEq, Prod.mk.injEq] at h
    obtain ⟨-, rfl⟩ := h
    exact ⟨rfl, fun _ _ => rfl⟩

/-- Witness of C8: `merge` of the runs `1, 4` and `2, 3, 5` inside the buffer
`[9, 1, 4, 2, 3, 5, 7]`, and `mgsort` on the range `2 .. 2` of the same
buffer. -/
theorem frame_outside_range_witness :
    (∀ idx : Int, (idx < 2 ∨ 2 < idx) →
        readAt [9, 1, 4, 2, 3, 5, 7] idx = readAt [(9 : Int), 1, 4, 2, 3, 5, 7] idx)
    ∧ (∀ idx : Int, (idx < 1 ∨ 5 < idx) →
        readAt [9, 1, 2, 3, 4, 5, 7] idx = readAt [(9 : Int), 1, 4, 2, 3, 5, 7] idx) :=
  ⟨((frame_outside_range 1 (World.init [9, 1, 4, 2, 3, 5, 7])
        (World.init [9, 1, 4, 2, 3, 5, 7]) 7 4 2 2 2 0 ascending).1 (by decide)).2,
   ((frame_outside_range 0 (World.init [(9 : Int), 1, 4, 2, 3, 5, 7])
        { data := [9, 1, 2, 3, 4, 5, 7], heap := [],
          log := [.compare 1 3, .read 1, .tmpWrite 0, .compare 2 3, .read 3, .tmpWrite 1,
                  .compare 2 4, .read 4, .tmpWrite 2, .compare 2 5, .read 2, .tmpWrite 3,
                  .read 5, .tmpWrite 4,
                  .tmpRead 0, .write 1, .tmpRead 1, .write 2, .tmpRead 2, .write 3,
                  .tmpRead 3, .write 4, .tmpRead 4, .write 5] }
        7 4 1 2 5 0 ascending).2 (by decide)).2⟩

/-- C9: if `malloc` gives no memory, `merge` returns `-1`; the buffer and the log
are what they were (no element read or written, no call of `compare`), only
the request has been consumed. -/
theorem merge_alloc_failure {α : Type} (w : World α) (rest : List Bool)
    (size esize i j k : Int) (compare : α → α → Int)
    (h : w.heap = false :: rest) :
    merge w size esize i k compare j = .done (-1, { w with heap := rest }) := by
  unfold merge malloc
  simp [h]

/-- Witness of C9: the buffer `[3, 1, 2]`, `i = 0`, `j = 0`, `k = 2`, and a heap
that refuses the request. -/
theorem merge_alloc_failure_witness :
    merge { data := [(3 : Int), 1, 2], heap := [false], log := [] } 3 4 0 2 ascending 0
      = .done (-1, { data := [3, 1, 2], heap := [], log := [] }) :=
  merge_alloc_failure { data := [(3 : Int), 1, 2], heap := [false], log := [] } [] 3 4 0 0 2
    ascending rfl

/-- C10 (on the code): on the buffer `[2, 1]`, range `0 .. 1`, with a heap that
refuses the next request, the merge step would fail (`merge` on the two halves
returns `-1`), yet `mgsort` does not return `-1`: it makes no request, never
reaches a merge step, and does not return, whatever the fuel.  No call of
`mgsort` ever returns `-1`, on any input. -/
theorem failure_never_reported :
    merge { data := [(2 : Int), 1], heap := [false], log := [] } 2 4 0 1 ascending 0
        = .done (-1, { data := [2, 1], heap := [], log := [] })
    ∧ (∀ fuel : Nat,
        mgsort fuel { data := [(2 : Int), 1], heap := [false], log := [] } 2 4 0 1 ascending
          = .outOfFuel)
    ∧ (∀ (fuel : Nat) (w w' : World Int) (size esize i k : Int),
        mgsort fuel w size esize i k ascending ≠ .done (-1, w')) := by
  refine ⟨by decide, ?_, ?_⟩
  · intro fuel
    rw [mgsort_eq]
    simp
  · intro fuel w w' size esize i k
    rw [mgsort_eq]
    split <;> simp

/-- C11 (on the code): with memory for every request, `mgsort` called on `[2, 1]`
over the range `0 .. 1` does not return success: it does not return at all,
whatever the fuel. -/
theorem no_success_without_alloc_failure :
    ∀ fuel : Nat,
      mgsort fuel { data := [(2 : Int), 1], heap := [], log := [] } 2 4 0 1 ascending
        = .outOfFuel := by
  intro fuel
  rw [mgsort_eq]
  simp

/-- C12 (on the code): on the buffer `[1, 2]`, range `0 .. 1` (split index `0`),
the third step of the body of `mgsort` is a call of the sort on `0 .. 1`, not a
merge: run with a callee that fails on the range `0 .. 1` only, the body returns
`-1` and no access is logged; `mgsort` itself never returns on this input; a merge
of `0 .. 0` with `1 .. 1` would return `0` after one comparison. -/
theorem third_step_is_recursive_sort :
    mgsortBody (failsOn 0 1) (World.init [(1 : Int), 2]) 2 4 0 1 ascending
        = .done (-1, World.init [1, 2])
    ∧ (∀ fuel : Nat,
        mgsort fuel (World.init [(1 : Int), 2]) 2 4 0 1 ascending = .outOfFuel)
    ∧ merge (World.init [(1 : Int), 2]) 2 4 0 1 ascending 0
        = .done (0, { data := [1, 2], heap := [],
                      log := [.compare 0 1, .read 0, .tmpWrite 0, .read 1, .tmpWrite 1,
                              .tmpRead 0, .write 0, .tmpRead 1, .write 1] }) := by
  refine ⟨by decide, ?_, by decide⟩
  intro fuel
  rw [mgsort_eq]
  simp

/-- C13 (on the code): in `merge` on the buffer `[3, 4, 1, 9]` with `i = 0`,
`j = 1`, `k = 2`, once the right run `1` is used up (`jpos = 3`) the loop over the
left run fills the remaining slots with `a[3] = 9` twice, not with the left-run
elements `3, 4`; the buffer ends as `[1, 9, 9, 9]`. -/
theorem left_run_remainder_not_copied :
    drainLeft [(3 : Int), 4, 1, 9] 1 2
        { m := [some 1, none, none], ipos := 0, jpos := 3, mpos := 1, log := [] }
      = .done { m := [some 1, some 9, some 9], ipos := 2, jpos := 3, mpos := 3,
                log := [.read 3, .tmpWrite 1, .read 3, .tmpWrite 2] }
    ∧ merge (World.init [(3 : Int), 4, 1, 9]) 4 4 0 2 ascending 1
      = .done (0, { data := [1, 9, 9, 9], heap := [],
                    log := [.compare 0 2, .read 2, .tmpWrite 0, .read 3, .tmpWrite 1,
                            .read 3, .tmpWrite 2, .tmpRead 0, .write 0, .tmpRead 1,
                            .write 1, .tmpRead 2, .write 2] }) := by
  refine ⟨by decide, by decide⟩

/-- C14 (on the code): for every buffer of `n + 2` elements (two or more),
`mgsort` over the whole range `0 .. n + 1` does not finish within any depth of
nested calls: the run is unfinished for every fuel. -/
theorem whole_range_never_terminates {α : Type} (n fuel : Nat) (w : World α)
    (esize : Int) (compare : α → α → Int) :
    mgsort fuel w ((n : Int) + 2) esize 0 ((n : Int) + 1) compare = .outOfFuel := by
  rw [mgsort_eq]
  have h : (0 : Int) < (n : Int) + 1 := by omega
  simp [h]

/-- C15, counterexample: on the range `0 .. 2` the split index that `mgsort`
computes is `0`, while `floor((0 + 2) / 2) = 1`; the first call of the body is
made on `0 .. 0` (a callee failing on `0 .. 0` makes the body fail, a callee
failing on `0 .. 1` is not disturbed). -/
theorem midpoint_counterexample :
    splitIndex 0 2 ≠ (0 + 2) / 2
    ∧ splitIndex 0 2 = 0
    ∧ mgsortBody (failsOn 0 0) (World.init [(3 : Int), 2, 1]) 3 4 0 2 ascending
        = .done (-1, World.init [3, 2, 1])
    ∧ mgsortBody (failsOn 0 1) (World.init [(3 : Int), 2, 1]) 3 4 0 2 ascending
        = .done (0, World.init [3, 2, 1]) := by
  refine ⟨by decide, by decide, by decide, by decide⟩

/-- C15, amended: for every range with `0 ≤ low < high` whose sum `low + high`
does not overflow `int` (`low + high ≤ INT_MAX`), the split index that `mgsort`
computes equals `floor((low + high - 1) / 2)`; this is
`floor((low + high) / 2)` when `low + high` is odd and one less than
`floor((low + high) / 2)` when `low + high` is even.  Under these hypotheses
`low`, `high`, `low + high` and `low + high - 1` are all values of `int`, so the
C expression is evaluated without overflow and `splitIndex` is its value. -/
theorem split_index_value (i k : Int) (h0 : 0 ≤ i) (hik : i < k)
    (hsum : i + k ≤ INT_MAX) :
    (INT_MIN ≤ i ∧ k ≤ INT_MAX ∧ INT_MIN ≤ i + k - 1 ∧ i + k - 1 ≤ INT_MAX)
      ∧ splitIndex i k = (i + k - 1) / 2
      ∧ splitIndex i k = (i + k) / 2 - (if (i + k) % 2 = 0 then 1 else 0) := by
  have hs : 0 ≤ i + k - 1 := by omega
  have hv : splitIndex i k = (i + k - 1) / 2 := by
    unfold splitIndex
    rw [tdiv_two_eq, if_pos hs]
  have hmin : INT_MIN ≤ 0 := by decide
  refine ⟨⟨by omega, by omega, by omega, by omega⟩, ?_⟩
  rw [hv]
  refine ⟨rfl, ?_⟩
  split <;> omega

/-- Witness of C15, amended: the ranges `0 .. 2` (even sum) and `1 .. 4` (odd
sum). -/
theorem split_index_value_witness :
    ((INT_MIN ≤ 0 ∧ 2 ≤ INT_MAX ∧ INT_MIN ≤ 0 + 2 - 1 ∧ 0 + 2 - 1 ≤ INT_MAX)
      ∧ splitIndex 0 2 = (0 + 2 - 1) / 2
      ∧ splitIndex 0 2 = (0 + 2) / 2 - (if ((0 : Int) + 2) % 2 = 0 then 1 else 0))
    ∧ ((INT_MIN ≤ 1 ∧ 4 ≤ INT_MAX ∧ INT_MIN ≤ 1 + 4 - 1 ∧ 1 + 4 - 1 ≤ INT_MAX)
      ∧ splitIndex 1 4 = (1 + 4 - 1) / 2
      ∧ splitIndex 1 4 = (1 + 4) / 2 - (if ((1 : Int) + 4) % 2 = 0 then 1 else 0)) :=
  ⟨split_index_value 0 2 (by decide) (by decide) (by decide),
   split_index_value 1 4 (by decide) (by decide) (by decide)⟩

/-- C17 (on the code): in `merge` on the buffer `[4, 5, 3]` with `i = 0`, `j = 1`,
`k = 2` and memory obtained, the loop does not reach its end with `mpos = 3`:
after the first write (slot `0`) it reads element `3`, outside the buffer, so
slots `1` and `2` are not written. -/
theorem merge_loop_stops_before_filling :
    mergeLoop [(4 : Int), 5, 3] ascending 1 2 3
        { m := [none, none, none], ipos := 0, jpos := 2, mpos := 0, log := [] }
      = .fault (.read 3)
    ∧ merge (World.init [(4 : Int), 5, 3]) 3 4 0 2 ascending 1 = .fault (.read 3) := by
  refine ⟨by decide, by decide⟩

/-- C18 (on the code): `mgsort` called on the strictly increasing buffer
`[1, 2, 3]` over the range `0 .. 2`, with memory for every request, does not
return, whatever the fuel. -/
theorem increasing_input_never_returns :
    ∀ fuel : Nat,
      mgsort fuel (World.init [(1 : Int), 2, 3]) 3 4 0 2 ascending = .outOfFuel := by
  intro fuel
  rw [mgsort_eq]
  simp

/-- C19: for all machine integers `i < k` for which `i + k - 1` does not overflow,
the split index `j = (i + k - 1) / 2` (truncating division) satisfies
`i ≤ j < k` and is a machine integer, as is `j + 1`; both `i .. j` and
`j + 1 .. k` are non-empty and strictly shorter than `i .. k`; and when `i ≥ 0`
their sizes are `floor(n / 2)` and `ceil(n / 2)` for `n = k - i + 1`. -/
theorem split_within_range (i k : Int)
    (hi : INT_MIN ≤ i ∧ i ≤ INT_MAX) (hk : INT_MIN ≤ k ∧ k ≤ INT_MAX) (hik : i < k)
    (_hsum : INT_MIN ≤ i + k - 1 ∧ i + k - 1 ≤ INT_MAX) :
    (i ≤ splitIndex i k ∧ splitIndex i k < k)
    ∧ (INT_MIN ≤ splitIndex i k ∧ splitIndex i k + 1 ≤ INT_MAX)
    ∧ (1 ≤ splitIndex i k - i + 1 ∧ splitIndex i k - i + 1 < k - i + 1)
    ∧ (1 ≤ k - splitIndex i k ∧ k - splitIndex i k < k - i + 1)
    ∧ (0 ≤ i → splitIndex i k - i + 1 = (k - i + 1) / 2
              ∧ k - splitIndex i k = (k - i + 1 + 1) / 2) := by
  have hlt := splitIndex_lt hik
  have hle : i ≤ splitIndex i k := by
    unfold splitIndex
    rw [tdiv_two_eq]
    split <;> omega
  refine ⟨⟨hle, hlt⟩, ⟨by omega, by omega⟩, ⟨by omega, by omega⟩, ⟨by omega, by omega⟩, ?_⟩
  intro h0
  have hs : 0 ≤ i + k - 1 := by omega
  have hv : splitIndex i k = (i + k - 1) / 2 := by
    unfold splitIndex
    rw [tdiv_two_eq, if_pos hs]
  rw [hv]
  omega

/-- Witness of C19: the range `3 .. 10` (`n = 8`, split index `6`). -/
theorem split_within_range_witness :
    (3 ≤ splitIndex 3 10 ∧ splitIndex 3 10 < 10)
    ∧ (INT_MIN ≤ splitIndex 3 10 ∧ splitIndex 3 10 + 1 ≤ INT_MAX)
    ∧ (1 ≤ splitIndex 3 10 - 3 + 1 ∧ splitIndex 3 10 - 3 + 1 < 10 - 3 + 1)
    ∧ (1 ≤ 10 - splitIndex 3 10 ∧ 10 - splitIndex 3 10 < 10 - 3 + 1)
    ∧ ((0 : Int) ≤ 3 → splitIndex 3 10 - 3 + 1 = (10 - 3 + 1) / 2
              ∧ 10 - splitIndex 3 10 = (10 - 3 + 1 + 1) / 2) :=
  split_within_range 3 10 (by decide) (by decide) (by decide) (by decide)

/-- C16: for every `merge` with `i ≤ j < k` that succeeds, element `i` of the
buffer afterwards is the old left head `buffer[i]` when
`compare(buffer[i], buffer[j + 1]) < 0` and the old right head `buffer[j + 1]`
otherwise (a tie takes the right head); and in every turn of the loop in which
both runs have an element left, the left element is the one copied (and `ipos`
the cursor advanced) exactly when it compares strictly less than the right
element. -/
theorem merge_comparison_step {α : Type} (w w' : World α) (size esize i j k : Int)
    (compare : α → α → Int) (x y : α)
    (hij : i ≤ j) (hjk : j < k)
    (hx : readAt w.data i = some x) (hy : readAt w.data (j + 1) = some y)
    (h : merge w size esize i k compare j = .done (0, w')) :
    readAt w'.data i = some (if compare x y < 0 then x else y)
    ∧ ∀ (fuel : Nat) (st : MergeState α) (u v : α),
        st.ipos ≤ j → st.jpos ≤ k →
        readAt w.data st.ipos = some u → readAt w.data st.jpos = some v →
        (0 ≤ st.mpos ∧ st.mpos < st.m.length) →
        mergeLoop w.data compare j k (fuel + 1) st =
          if compare u v < 0 then
            mergeLoop w.data compare j k fuel
              { m := st.m.set st.mpos.toNat (some u), ipos := st.ipos + 1, jpos := st.jpos,
                mpos := st.mpos + 1,
                log := st.log ++ [.compare st.ipos st.jpos]
                  ++ [.read st.ipos, .tmpWrite st.mpos] }
          else
            mergeLoop w.data compare j k fuel
              { m := st.m.set st.mpos.toNat (some v), ipos := st.ipos, jpos := st.jpos + 1,
                mpos := st.mpos + 1,
                log := st.log ++ [.compare st.ipos st.jpos]
                  ++ [.read st.jpos, .tmpWrite st.mpos] } := by
  refine ⟨?_, fun fuel st u v h1 h2 h3 h4 h5 =>
    mergeLoop_compare_step w.data compare j k fuel st u v h1 h2 h3 h4 h5⟩
  unfold merge at h
  simp only [] at h
  have hm := malloc_snd w (esize * ((k - i) + 1))
  split at h
  · simp at h
  · next w1 hw1 =>
    rw [hw1] at hm
    simp only at hm
    obtain ⟨f, hf⟩ : ∃ f, (j + 1 - i).toNat + (k + 1 - (j + 1)).toNat = f + 1 :=
      ⟨(j + 1 - i).toNat + (k + 1 - (j + 1)).toNat - 1, by omega⟩
    obtain ⟨n, hn⟩ : ∃ n, ((k - i) + 1).toNat = n + 1 :=
      ⟨((k - i) + 1).toNat - 1, by omega⟩
    rw [hf, hn, hm.1] at h
    rw [mergeLoop_compare_step w.data compare j k f _ x y hij (by simp only; omega) hx hy
      (by simp)] at h
    split at h
    · next st hst =>
      split at h
      · next a' log' hcb =>
        simp only [Run.done.injEq, Prod.mk.injEq, true_and] at h
        subst h
        simp only
        obtain ⟨v, hv, hr⟩ := copyBack_first _ _ _ _ _ _ _ _ hcb
        simp only [Nat.cast_zero, add_zero] at hr
        rw [hr]
        split at hst
        · next hc =>
          have h0 := (mergeLoop_slot_zero w.data compare j k f _ st hst (by simp)).1
          rw [hv] at h0
          simpa [hc] using h0
        · next hc =>
          have h0 := (mergeLoop_slot_zero w.data compare j k f _ st hst (by simp)).1
          rw [hv] at h0
          simpa [hc] using h0
      · cases h
      · cases h
    · cases h
    · cases h

/-- Witness of C16: `merge` of the runs `(1,"a")` and `(1,"b"), (2,"c")`, compared
on the first field: the heads tie, and the first element afterwards is the
right head `(1,"b")`. -/
theorem merge_comparison_step_witness :
    readAt [((1 : Int), "b"), (1, "a"), (2, "c")] 0
      = some (if byFirst (1, "a") (1, "b") < 0 then ((1 : Int), "a") else (1, "b")) :=
  (merge_comparison_step (World.init [((1 : Int), "a"), (1, "b"), (2, "c")])
    { data := [(1, "b"), (1, "a"), (2, "c")], heap := [],
      log := [.compare 0 1, .read 1, .tmpWrite 0, .compare 0 2, .read 0, .tmpWrite 1,
              .read 2, .tmpWrite 2, .tmpRead 0, .write 0, .tmpRead 1, .write 1,
              .tmpRead 2, .write 2] }
    3 32 0 0 2 byFirst (1, "a") (1, "b")
    (by decide) (by decide) (by decide) (by decide) (by decide)).1

end MgSort
